import Mathlib

/-!
Verification of the Peloton index-selection engine
(`src/brain/index_selection.cpp`, `src/include/brain/index_selection_util.h`,
`src/include/brain/index_selection_context.h`) against its natural-language
specification.

Shallow embedding conventions:
- `oid_t` is `Nat`.
- `IndexObject.column_oids` is declared `std::set<oid_t>` in
  index_selection_util.h, i.e. a sorted, duplicate-free collection with
  value-based membership; it is embedded as `Finset Nat`.  Its iteration
  order (ascending oid) is recovered with `sortNat` below.
- The content-addressed `IndexObjectPool` is a `List IndexObject` in intern
  order; a `shared_ptr<IndexObject>` handle is the position of the interned
  object in that list.  Two `shared_ptr`s compare by pointer identity, which
  the pool makes one-to-one with interned values, so handle ids model
  pointer identity faithfully.  The `std::set<std::shared_ptr<IndexObject>>`
  inside `IndexConfiguration` orders by pointer, embedded as `Finset Nat` of
  handle ids iterated in ascending id order.
- Costs (`double` in the source) are embedded as `Int`; the claims under
  study are order- and equality-theoretic, every universal theorem holds for
  all integer-valued oracles, and all concrete oracle values used below are
  integral, so no rounding behaviour is involved.
- `assert` in the source is embedded as an explicit check: functions whose
  callers must respect the assertion either take it as a hypothesis or
  return `Option` (`none` models an assertion failure / fatal error).
-/

namespace PelotonBrain

/-- The ascending enumeration of a finite set of naturals, used to model the
iteration order of the various `std::set`s.  Implemented with the structural
`List.insertionSort` so that concrete instances evaluate inside the
kernel. -/
def sortNat (s : Finset Nat) : List Nat :=
  Quotient.lift (fun l => List.insertionSort (fun a b => a ≤ b) l)
    (fun l1 l2 h => List.eq_of_perm_of_sorted
      (((List.perm_insertionSort _ l1).trans h).trans
        (List.perm_insertionSort _ l2).symm)
      (List.sorted_insertionSort _ l1) (List.sorted_insertionSort _ l2))
    s.val

/-- Decidable equality of finite sets of naturals through their sorted
enumerations.  This replaces the library instance (which does not reduce
inside the kernel) for every definition of this development. -/
instance (priority := 2000) instDecEqFinsetNat : DecidableEq (Finset Nat) :=
  fun a b =>
    decidable_of_iff (sortNat a = sortNat b) (by
      have key : ∀ s : Finset Nat, (sortNat s).toFinset = s := by
        intro s
        rcases s with ⟨m, hm⟩
        induction m using Quotient.inductionOn with
        | h l =>
          ext x
          simp only [sortNat, Quotient.lift_mk, List.mem_toFinset]
          rw [List.Perm.mem_iff (List.perm_insertionSort _ l)]
          simp [Finset.mem_mk]
      constructor
      · intro h
        rw [← key a, ← key b, h]
      · intro h
        rw [h])

/-- One hypothetical index: `struct IndexObject` of index_selection_util.h.
The columns field is a `std::set<oid_t>` in the source, hence a `Finset`. -/
structure IndexObject where
  db_oid : Nat
  table_oid : Nat
  column_oids : Finset Nat
deriving Inhabited

/-- Kernel-reducible decidable equality for index objects (the derived
instance reduces poorly inside the kernel). -/
instance instDecEqIndexObject : DecidableEq IndexObject := fun a b =>
  decidable_of_iff
    (a.db_oid = b.db_oid ∧ a.table_oid = b.table_oid ∧ a.column_oids = b.column_oids)
    (by cases a; cases b; simp)

/-- The single-column constructor `IndexObject(db_oid, table_oid, col_oid)`. -/
def IndexObject.ofColumn (db table col : Nat) : IndexObject :=
  ⟨db, table, {col}⟩

/-- The vector constructor `IndexObject(db_oid, table_oid, col_oids)`: the
source inserts each element of the vector into the `std::set` in turn. -/
def IndexObject.ofColumns (db table : Nat) (cols : List Nat) : IndexObject :=
  ⟨db, table, cols.foldl (fun s c => insert c s) ∅⟩

/-- The column sequence as iterated from the `std::set<oid_t>`: ascending
oid order. -/
def IndexObject.columnsSeq (o : IndexObject) : List Nat :=
  sortNat o.column_oids

/-- Modelled from the spec: the body of `IndexObject::operator==` lives in
index_selection_util.cpp, which is not part of src/; the spec states that two
keys are equal iff `db_id`, `table_id` and the columns field are all equal. -/
def IndexObject.eqOp (a b : IndexObject) : Prop :=
  a.db_oid = b.db_oid ∧ a.table_oid = b.table_oid ∧ a.column_oids = b.column_oids

/-- Modelled from the spec: the body of `IndexObject::IsCompatible` is in
index_selection_util.cpp (absent from src/); its doc comment in
index_selection_util.h says it returns true iff the two indexes are in the
same database and table. -/
def IndexObject.IsCompatible (a b : IndexObject) : Prop :=
  a.db_oid = b.db_oid ∧ a.table_oid = b.table_oid

instance (a b : IndexObject) : Decidable (a.IsCompatible b) :=
  inferInstanceAs (Decidable (a.db_oid = b.db_oid ∧ a.table_oid = b.table_oid))

/-- Modelled from the spec: the body of `IndexObject::Merge` is in
index_selection_util.cpp (absent from src/); the spec says the merge keeps
the left key identity and its columns are the concatenation of the left
columns with the right columns not already present.  Stored into the
`std::set<oid_t> column_oids` declared in the header, that concatenation
collapses to the set union. -/
def IndexObject.Merge (a b : IndexObject) : IndexObject :=
  ⟨a.db_oid, a.table_oid, a.column_oids ∪ b.column_oids⟩

/-- The canonical form of a key, `"db/table/c1,c2,…"` per the spec, embedded
as the list `[db, table, c1, c2, …]` with the columns in their iteration
(ascending) order; for the concrete oids used below, lexicographic order on
these lists coincides with lexicographic order on the canonical strings. -/
def IndexObject.canonKey (o : IndexObject) : List Nat :=
  o.db_oid :: o.table_oid :: o.columnsSeq

/-- Lexicographic comparison of canonical keys. -/
def lexLe : List Nat → List Nat → Bool
  | [], _ => true
  | _ :: _, [] => false
  | a :: as, b :: bs => if a < b then true else if b < a then false else lexLe as bs

/-- The content-addressed pool `IndexObjectPool`: interned objects in intern
order; a handle is a position in this list. -/
abbrev Pool := List IndexObject

/-- Find the handle of an already interned object (`GetIndexObject`):
lookup by object equality. -/
def poolFind : Pool → IndexObject → Option Nat
  | [], _ => none
  | x :: xs, o => if x = o then some 0 else (poolFind xs o).map (· + 1)

/-- `IndexObjectPool::PutIndexObject` (body in index_selection_util.cpp,
absent from src/; its doc comment in the header says: if the object already
exists return its shared pointer, else create it, add it to the pool and
return the new shared pointer).  Returns the handle and the updated pool. -/
def PutIndexObject (p : Pool) (o : IndexObject) : Nat × Pool :=
  match poolFind p o with
  | some j => (j, p)
  | none => (p.length, p ++ [o])

/-- Dereference a handle (pointer) into the pool. -/
def getObj (p : Pool) (h : Nat) : IndexObject :=
  p.getD h default

/-- An `IndexConfiguration`: the `std::set<std::shared_ptr<IndexObject>>`
member `indexes_`, as the finite set of handle ids. -/
abbrev Config := Finset Nat

/-- Iteration order of a configuration: the `std::set` of `shared_ptr`s is
ordered by pointer identity, i.e. ascending handle id. -/
def Config.iterate (c : Config) : List Nat :=
  sortNat c

/-- Pairwise-adjacent comparison of a list of handles under a key
function. -/
def ascendingBy (f : Nat → List Nat) : List Nat → Bool
  | [] => true
  | [_] => true
  | a :: b :: rest => lexLe (f a) (f b) && ascendingBy f (b :: rest)

/-- The ordering property the spec claims for iteration: consecutive members
appear in ascending canonical-key order. -/
def canonicallyOrdered (p : Pool) (c : Config) : Prop :=
  ascendingBy (fun h => (getObj p h).canonKey) c.iterate = true

instance (p : Pool) (c : Config) : Decidable (canonicallyOrdered p c) :=
  inferInstanceAs (Decidable (_ = true))

/-- Every handle of the configuration points at a single-column pool entry. -/
def singleColConfig (p : Pool) (c : Config) : Prop :=
  ∀ h ∈ c, h < p.length ∧ (getObj p h).column_oids.card = 1

/-! ### Cost oracle and memoization (`IndexSelection::GetCost`,
`IndexSelectionContext::memo_`) -/

/-- An oracle assigns a cost to a configuration for one statement, modelling
`WhatIfIndex::GetCostAndPlanTree`.  Statements are identified by their
position in the workload (pointer identity in the source). -/
abbrev Oracle := Config → Nat → Int

/-- The pure workload cost: the sum over the queries of the per-statement
oracle cost, which is the value `GetCost` computes (its memo caches exactly
these oracle results). -/
def costW (oracle : Oracle) (w : List Nat) (c : Config) : Int :=
  (w.map (oracle c)).sum

/-- The mutable state of `IndexSelectionContext` relevant to costing: the
memo table `memo_` keyed by `(configuration, statement)`, plus a log of the
oracle invocations actually performed (for counting calls). -/
structure CostState where
  memo : List ((Config × Nat) × Int)
  calls : List (Config × Nat)

/-- Lookup in the memo table.  The `unordered_map` of the source compares
keys with configuration equality (set equality, modelled from the spec since
the body of `IndexConfiguration::operator==` is in index_selection_util.cpp,
absent from src/) and statement pointer identity; the degenerate `KeyHasher`
(the configuration hash is commented out) only affects bucketing, not
lookup semantics. -/
def memoLookup : List ((Config × Nat) × Int) → Config × Nat → Option Int
  | [], _ => none
  | (k, v) :: rest, key => if k = key then some v else memoLookup rest key

/-- `IndexSelection::GetCost`: fold over the workload queries; on a memo hit
add the cached cost, on a miss invoke the oracle, record the result in the
memo and log the invocation. -/
def GetCost (oracle : Oracle) (config : Config) :
    List Nat → CostState → Int × CostState
  | [], st => (0, st)
  | q :: rest, st =>
    match memoLookup st.memo (config, q) with
    | some v =>
      let r := GetCost oracle config rest st
      (v + r.1, r.2)
    | none =>
      let v := oracle config q
      let st1 : CostState :=
        ⟨((config, q), v) :: st.memo, st.calls ++ [(config, q)]⟩
      let r := GetCost oracle config rest st1
      (v + r.1, r.2)

/-! ### Exhaustive enumeration (`IndexSelection::ExhaustiveEnumeration`) -/

/-- One outer-loop iteration of `ExhaustiveEnumeration` for candidate `i`:
take a snapshot of the running set, extend every subset in it by `i`, and
route each extension to the result set if its size reached
`min_enumerate_count`, else back to the running set.  The sets of
configurations (`std::set<IndexConfiguration, Comp>`) are modelled from the
spec as plain sets of subsets: the comparator type `Comp` is not part of
src/ and the spec describes this pass as maintaining two sets of subsets. -/
def ExhaustiveStep (m : Nat) (st : Finset Config × Finset Config) (i : Nat) :
    Finset Config × Finset Config :=
  let newborn := st.1.image (fun t => insert i t)
  (st.1 ∪ newborn.filter (fun s => s.card < m),
   st.2 ∪ newborn.filter (fun s => m ≤ s.card))

/-- The final `result_set` of `ExhaustiveEnumeration`: run the expansion over
the candidates (iterated in handle order), merge the running set into the
result set, and erase the empty configuration. -/
def ExhaustiveResultSet (m : Nat) (cands : Config) : Finset Config :=
  let st := (sortNat cands).foldl (ExhaustiveStep m) ({∅}, ∅)
  (st.2 ∪ st.1).erase ∅

/-- The assertion `assert(m <= indexes.GetIndexCount())` guarding
`ExhaustiveEnumeration`. -/
def ExhaustiveAssert (m : Nat) (cands : Config) : Prop :=
  m ≤ cands.card

instance (m : Nat) (c : Config) : Decidable (ExhaustiveAssert m c) :=
  inferInstanceAs (Decidable (m ≤ c.card))

/-- `ExhaustiveEnumeration` returns `top_indexes`, the union (`Add`) of the
members of every configuration in the result set. -/
def ExhaustiveEnumeration (m : Nat) (cands : Config) : Config :=
  (ExhaustiveResultSet m cands).sup id

/-- `IndexSelection::GetRemainingIndexes`: set difference. -/
def GetRemainingIndexes (indexes top_indexes : Config) : Config :=
  indexes \ top_indexes

/-! ### Greedy search (`IndexSelection::GreedySearch`) -/

/-- The inner `for` loop of `GreedySearch`: probe each remaining handle `i`
by costing `original` extended with `i`, tracking the minimum cost seen, the
best handle, and the last handle probed (because the source leaves `indexes`
holding `original` plus the last probed handle when the loop ends). -/
def greedyInner (oracle : Oracle) (w : List Nat) (original : Config) :
    List Nat → Int × Option Nat × Option Nat → Int × Option Nat × Option Nat
  | [], acc => acc
  | i :: rest, acc =>
    let c := costW oracle w (insert i original)
    let acc1 : Int × Option Nat × Option Nat :=
      if c < acc.1 then (c, some i, some i) else (acc.1, acc.2.1, some i)
    greedyInner oracle w original rest acc1

/-- The `while` loop of `GreedySearch`, with fuel `k - count` (each
continuing iteration increments `current_index_count`, so the loop runs at
most `k - count` times).  Faithful to the source: after the probe loop the
variable `indexes` holds `original` plus the *last* probed handle, and the
best handle is then added on top of that contaminated set; when no probe
improves on the global minimum the contaminated set is returned as is. -/
def greedyAux (oracle : Oracle) (w : List Nat) (k : Nat) :
    Nat → Nat → Config → Config → Int → Config
  | 0, _, indexes, _, _ => indexes
  | f + 1, count, indexes, remaining, globalMin =>
    if count < k then
      let probe := greedyInner oracle w indexes (sortNat remaining)
        (globalMin, none, none)
      let indexesAfter := match probe.2.2 with
        | none => indexes
        | some l => insert l indexes
      if probe.1 < globalMin then
        match probe.2.1 with
        | some b =>
          let indexes1 := insert b indexesAfter
          let remaining1 := remaining.erase b
          if remaining1.card = 0 then indexes1
          else greedyAux oracle w k f (count + 1) indexes1 remaining1 probe.1
        | none => indexesAfter
      else indexesAfter
    else indexes

/-- `IndexSelection::GreedySearch`: returns immediately when
`current_index_count = min_enumerate_count >= k`, otherwise establishes the
global minimum cost of the seed and runs the extension loop. -/
def GreedySearch (m k : Nat) (oracle : Oracle) (w : List Nat)
    (indexes remaining : Config) : Config :=
  if k ≤ m then indexes
  else greedyAux oracle w k (k - m) m indexes remaining (costW oracle w indexes)

/-- `IndexSelection::Enumerate`: exhaustive seed, then greedy extension on
the remaining candidates. -/
def Enumerate (m k : Nat) (oracle : Oracle) (cands : Config) (w : List Nat) :
    Config :=
  let top := ExhaustiveEnumeration m cands
  GreedySearch m k oracle w top (GetRemainingIndexes cands top)

/-! ### Bound SQL statements and admissible-index extraction
(`IndexSelection::GetAdmissibleIndexes` and its helpers) -/

/-- The expression kinds `IndexColsParseWhereHelper` distinguishes: the nine
comparison operators it accepts, the two conjunctions it recurses through,
tuple-value (column reference) leaves carrying the bound
`(db_oid, table_oid, col_oid)` triple and the `GetIsBound` flag, constant
values, and everything else (rejected by the default branch). -/
inductive CmpOp
  | eq | ne | gt | ge | lt | le | like | notLike | inOp
deriving DecidableEq

/-- The bound expression tree walked by `IndexColsParseWhereHelper`. -/
inductive Expr
  | tupleVal (oids : Nat × Nat × Nat) (isBound : Bool)
  | constVal
  | cmp (op : CmpOp) (l r : Expr)
  | conjAnd (l r : Expr)
  | conjOr (l r : Expr)
  | unsupported
deriving DecidableEq

/-- Whether an expression node has type `ExpressionType::VALUE_TUPLE`. -/
def Expr.isTuple : Expr → Bool
  | .tupleVal _ _ => true
  | _ => false

/-- `IndexSelection::IndexObjectPoolInsertHelper`: build the single-column
`IndexObject` from the bound oids, intern it (`GetIndexObject` then
`PutIndexObject` on a miss, which the pool `PutIndexObject` already folds
into one idempotent operation), and add the handle to the configuration. -/
def IndexObjectPoolInsertHelper (oids : Nat × Nat × Nat) (p : Pool)
    (config : Config) : Pool × Config :=
  let r := PutIndexObject p (IndexObject.ofColumn oids.1 oids.2.1 oids.2.2)
  (r.2, insert r.1 config)

/-- The recursive body of `IndexColsParseWhereHelper` on a non-null
expression.  `none` models a failed `assert` (comparison without exactly one
tuple child, unbound column, or an unsupported expression kind). -/
def parseWhere : Expr → Pool → Config → Option (Pool × Config)
  | .cmp _ l r, p, config =>
    if l.isTuple then
      if r.isTuple then none
      else
        match l with
        | .tupleVal oids isBound =>
          if isBound then some (IndexObjectPoolInsertHelper oids p config)
          else none
        | _ => none
    else
      match r with
      | .tupleVal oids isBound =>
        if isBound then some (IndexObjectPoolInsertHelper oids p config)
        else none
      | _ => none
  | .conjAnd l r, p, config =>
    (parseWhere l p config).bind fun s => parseWhere r s.1 s.2
  | .conjOr l r, p, config =>
    (parseWhere l p config).bind fun s => parseWhere r s.1 s.2
  | _, _, _ => none

/-- `IndexColsParseWhereHelper` including the null check: a missing WHERE
clause contributes nothing. -/
def IndexColsParseWhereHelper (e : Option Expr) (p : Pool) (config : Config) :
    Option (Pool × Config) :=
  match e with
  | none => some (p, config)
  | some ex => parseWhere ex p config

/-- Shared body of `IndexColsParseGroupByHelper` and
`IndexColsParseOrderByHelper`: every element must be a tuple-value
expression (asserted); its bound oids are interned without a bound check
(the source casts and reads `GetBoundOid` directly on these paths). -/
def parseTupleList : List Expr → Pool → Config → Option (Pool × Config)
  | [], p, config => some (p, config)
  | .tupleVal oids _ :: rest, p, config =>
    let s := IndexObjectPoolInsertHelper oids p config
    parseTupleList rest s.1 s.2
  | _ :: _, _, _ => none

/-- `IndexColsParseGroupByHelper` / `IndexColsParseOrderByHelper` including
the null-or-empty check. -/
def IndexColsParseClauseHelper (e : Option (List Expr)) (p : Pool)
    (config : Config) : Option (Pool × Config) :=
  match e with
  | none => some (p, config)
  | some exprs => parseTupleList exprs p config

/-- A bound SQL statement as `GetAdmissibleIndexes` consumes it: SELECT with
optional WHERE, ORDER BY and GROUP BY; INSERT with an optional inner SELECT
(only its WHERE is parsed); DELETE and UPDATE with their WHERE; and DDL or
other statements (the default branch, which asserts). -/
inductive SQLStatement
  | selectS (whereClause : Option Expr) (orderBy : Option (List Expr))
      (groupBy : Option (List Expr))
  | insertS (selectWhere : Option (Option Expr))
  | deleteS (whereClause : Option Expr)
  | updateS (whereClause : Option Expr)
  | otherS
deriving DecidableEq

/-- `IndexSelection::GetAdmissibleIndexes`.  `none` models a failed assert
(DDL statement or unsupported expression).  SELECT parses WHERE, then ORDER
BY, then GROUP BY, in source order. -/
def GetAdmissibleIndexes (q : SQLStatement) (p : Pool) :
    Option (Pool × Config) :=
  match q with
  | .selectS wh ord grp =>
    (IndexColsParseWhereHelper wh p ∅).bind fun s1 =>
    (IndexColsParseClauseHelper ord s1.1 s1.2).bind fun s2 =>
    IndexColsParseClauseHelper grp s2.1 s2.2
  | .insertS sel =>
    match sel with
    | none => some (p, ∅)
    | some wh => IndexColsParseWhereHelper wh p ∅
  | .deleteS wh => IndexColsParseWhereHelper wh p ∅
  | .updateS wh => IndexColsParseWhereHelper wh p ∅
  | .otherS => none

/-! ### Multi-column growth (`IndexSelection::Crossproduct`,
`IndexSelection::GenMultiColumnIndexes`) -/

/-- `IndexSelection::Crossproduct`: for every index of the first
configuration and every index of the second, merge the compatible pairs and
intern the merged object.  No self-merge check is performed in the source.
The nested range-for iterates the two handle sets in handle order. -/
def Crossproduct (config single_column_indexes : Config) (p : Pool) :
    Config × Pool :=
  (sortNat config).foldl
    (fun acc h =>
      (sortNat single_column_indexes).foldl
        (fun acc2 h2 =>
          if (getObj acc2.2 h).IsCompatible (getObj acc2.2 h2) then
            let r := PutIndexObject acc2.2 ((getObj acc2.2 h).Merge (getObj acc2.2 h2))
            (insert r.1 acc2.1, r.2)
          else acc2)
        acc)
    (∅, p)

/-- `IndexSelection::GenMultiColumnIndexes`: delegates to `Crossproduct`. -/
def GenMultiColumnIndexes (config single_column_indexes : Config) (p : Pool) :
    Config × Pool :=
  Crossproduct config single_column_indexes p

/-! ### The pipeline (`IndexSelection::GetBestIndexes`) -/

/-- The per-query loop of `GetBestIndexes`: extract the admissible set of
the query, run `Enumerate` on it — directly, with the literal `k = 4` of the
source and a single-query workload — and union the result into the
accumulator.  `none` models a fatal assert, including the
`assert(m <= indexes.GetIndexCount())` inside `ExhaustiveEnumeration`. -/
def GetBestIndexesAux (m : Nat) (oracle : Oracle) :
    List SQLStatement → Nat → Pool → Config → Option (Pool × Config)
  | [], _, p, acc => some (p, acc)
  | q :: rest, qIdx, p, acc =>
    (GetAdmissibleIndexes q p).bind fun s =>
    if ExhaustiveAssert m s.2 then
      GetBestIndexesAux m oracle rest (qIdx + 1) s.1
        (acc ∪ Enumerate m 4 oracle s.2 [qIdx])
    else none

/-- `IndexSelection::GetBestIndexes`: fold the per-query loop over the
workload, starting from an empty pool and an empty result. -/
def GetBestIndexes (m : Nat) (oracle : Oracle) (queries : List SQLStatement) :
    Option (Pool × Config) :=
  GetBestIndexesAux m oracle queries 0 [] ∅

/-! ### Spec-side definition used for refinement comparison -/

/-- Modelled from the spec, for comparison with the source: the column
sequence the spec prescribes for a merge — the left columns followed by the
right columns not already present, preserving order, deduplicating. -/
def specMergeColumns (a b : IndexObject) : List Nat :=
  a.columnsSeq ++ b.columnsSeq.filter (fun c => !a.columnsSeq.contains c)

/-! ### Concrete instances used by witnesses and counterexamples -/

/-- A cost oracle that is constant zero. -/
def oracleZero : Oracle := fun _ _ => 0

/-- Oracle for the seed-phase counterexample: the singleton of handle 0 is
strictly cheapest. -/
def oracleSeed : Oracle := fun c _ => if c = {0} then 1 else 10

/-- Oracle for the size-bound counterexample. -/
def oracleBound : Oracle := fun c _ => if c = {0} then 3 else 7

/-- Oracle for the greedy failing input: the seed `{0}` costs 10, probing
handle 1 improves it to 5, probing handle 2 degrades it to 100, and the
configuration the code actually builds, `{0, 1, 2}`, costs 50. -/
def oracleGreedy : Oracle := fun c _ =>
  if c = {0} then 10 else if c = {0, 1} then 5
  else if c = {0, 2} then 100 else 50

/-- The query `SELECT * FROM t WHERE a = 1 AND b = 2` with bound columns
`a = (1, 10, 100)` and `b = (1, 10, 101)`. -/
def qAndAB : SQLStatement :=
  .selectS (some (.conjAnd (.cmp .eq (.tupleVal (1, 10, 100) true) .constVal)
                           (.cmp .eq (.tupleVal (1, 10, 101) true) .constVal)))
    none none

/-- The same query with the two conjuncts swapped, so that the pool interns
column 101 before column 100. -/
def qAndBA : SQLStatement :=
  .selectS (some (.conjAnd (.cmp .eq (.tupleVal (1, 10, 101) true) .constVal)
                           (.cmp .eq (.tupleVal (1, 10, 100) true) .constVal)))
    none none

/-- The pool produced by extracting `qAndAB` from an empty pool. -/
def poolAB : Pool := [IndexObject.ofColumn 1 10 100, IndexObject.ofColumn 1 10 101]

/-- The pool produced by extracting `qAndBA` from an empty pool: intern
order, hence handle order, is the reverse of canonical-string order. -/
def poolBA : Pool := [IndexObject.ofColumn 1 10 101, IndexObject.ofColumn 1 10 100]

/-! ## Lemmas -/

theorem sortNat_eq_sort (s : Finset Nat) : sortNat s = s.sort (· ≤ ·) := by
  rcases s with ⟨m, hm⟩
  induction m using Quotient.inductionOn with
  | h l =>
    refine List.eq_of_perm_of_sorted ?_ (List.sorted_insertionSort _ l)
      (Finset.sort_sorted _ _)
    exact (List.perm_insertionSort _ l).trans
      (Quotient.exact (Multiset.sort_eq (· ≤ ·) ⟦l⟧)).symm

theorem sortNat_sorted_lt (s : Finset Nat) : List.Sorted (· < ·) (sortNat s) := by
  rw [sortNat_eq_sort]
  exact Finset.sort_sorted_lt s

theorem mem_sortNat (s : Finset Nat) (a : Nat) : a ∈ sortNat s ↔ a ∈ s := by
  rw [sortNat_eq_sort]
  exact Finset.mem_sort _

theorem sortNat_nodup (s : Finset Nat) : (sortNat s).Nodup := by
  rw [sortNat_eq_sort]
  exact Finset.sort_nodup _ _

theorem sortNat_toFinset (s : Finset Nat) : (sortNat s).toFinset = s := by
  rw [sortNat_eq_sort]
  exact Finset.sort_toFinset _ _

theorem eqOp_iff (a b : IndexObject) : a.eqOp b ↔ a = b := by
  cases a
  cases b
  unfold IndexObject.eqOp
  simp

theorem ofColumns_pair_comm (db t x y : Nat) :
    IndexObject.ofColumns db t [x, y] = IndexObject.ofColumns db t [y, x] := by
  unfold IndexObject.ofColumns
  simp only [List.foldl]
  congr 1
  exact Finset.pair_comm y x

theorem exhaustiveStep_char (m : Nat) (hm : 1 ≤ m) (A : Finset Nat) (x : Nat)
    (hx : x ∉ A) :
    ExhaustiveStep m (A.powerset.filter (fun s => s.card < m),
        A.powerset.filter (fun s => s.card = m)) x
      = ((insert x A).powerset.filter (fun s => s.card < m),
         (insert x A).powerset.filter (fun s => s.card = m)) := by
  unfold ExhaustiveStep
  refine Prod.ext ?_ ?_
  · ext s
    simp only [Finset.mem_union, Finset.mem_filter, Finset.mem_image,
      Finset.mem_powerset]
    constructor
    · rintro (⟨hsub, hc⟩ | ⟨⟨t, ⟨htsub, htc⟩, hts⟩, hc⟩)
      · exact ⟨hsub.trans (Finset.subset_insert x A), hc⟩
      · subst hts
        exact ⟨Finset.insert_subset_insert x htsub, hc⟩
    · rintro ⟨hsub, hc⟩
      by_cases hxs : x ∈ s
      · right
        refine ⟨⟨s.erase x, ⟨?_, ?_⟩, Finset.insert_erase hxs⟩, hc⟩
        · intro y hy
          have hy1 := Finset.mem_of_mem_erase hy
          have hy2 := Finset.ne_of_mem_erase hy
          rcases Finset.mem_insert.mp (hsub hy1) with h | h
          · exact absurd h hy2
          · exact h
        · have := Finset.card_erase_le (a := x) (s := s)
          omega
      · left
        refine ⟨?_, hc⟩
        intro y hy
        rcases Finset.mem_insert.mp (hsub hy) with h | h
        · subst h; exact absurd hy hxs
        · exact h
  · ext s
    simp only [Finset.mem_union, Finset.mem_filter, Finset.mem_image,
      Finset.mem_powerset]
    constructor
    · rintro (⟨hsub, hc⟩ | ⟨⟨t, ⟨htsub, htc⟩, hts⟩, hc⟩)
      · exact ⟨hsub.trans (Finset.subset_insert x A), hc⟩
      · subst hts
        have hxt : x ∉ t := fun hmem => hx (htsub hmem)
        have hcard : (insert x t).card = t.card + 1 :=
          Finset.card_insert_of_not_mem hxt
        exact ⟨Finset.insert_subset_insert x htsub, by omega⟩
    · rintro ⟨hsub, hc⟩
      by_cases hxs : x ∈ s
      · right
        have herase : (s.erase x).card = s.card - 1 :=
          Finset.card_erase_of_mem hxs
        have hesub : s.erase x ⊆ A := by
          intro y hy
          have hy1 := Finset.mem_of_mem_erase hy
          have hy2 := Finset.ne_of_mem_erase hy
          rcases Finset.mem_insert.mp (hsub hy1) with h | h
          · exact absurd h hy2
          · exact h
        refine ⟨⟨s.erase x, ⟨hesub, by omega⟩, Finset.insert_erase hxs⟩, by omega⟩
      · left
        refine ⟨?_, hc⟩
        intro y hy
        rcases Finset.mem_insert.mp (hsub hy) with h | h
        · subst h; exact absurd hy hxs
        · exact h

theorem exhaustiveFold_char (m : Nat) (hm : 1 ≤ m) :
    ∀ (l : List Nat) (A : Finset Nat), l.Nodup → (∀ y ∈ l, y ∉ A) →
    l.foldl (ExhaustiveStep m)
      (A.powerset.filter (fun s => s.card < m),
       A.powerset.filter (fun s => s.card = m))
      = ((A ∪ l.toFinset).powerset.filter (fun s => s.card < m),
         (A ∪ l.toFinset).powerset.filter (fun s => s.card = m)) := by
  intro l
  induction l with
  | nil =>
    intro A _ _
    simp
  | cons x xs ih =>
    intro A hnodup hdisj
    have hx : x ∉ A := hdisj x (by simp)
    have hxxs : x ∉ xs := (List.nodup_cons.mp hnodup).1
    simp only [List.foldl_cons]
    rw [exhaustiveStep_char m hm A x hx]
    rw [ih (insert x A) (List.nodup_cons.mp hnodup).2 ?_]
    · have hset : insert x A ∪ xs.toFinset = A ∪ (x :: xs).toFinset := by
        rw [List.toFinset_cons, Finset.insert_union, Finset.union_insert]
      rw [hset]
    · intro y hy
      simp only [Finset.mem_insert]
      push_neg
      refine ⟨?_, hdisj y (by simp [hy])⟩
      intro hyx
      subst hyx
      exact hxxs hy

theorem exhaustiveResultSet_eq (m : Nat) (hm : 1 ≤ m) (cands : Config) :
    ExhaustiveResultSet m cands
      = cands.powerset.filter (fun s => s ≠ ∅ ∧ s.card ≤ m) := by
  have h1 : (∅ : Finset Nat).powerset.filter (fun s => s.card < m)
      = ({∅} : Finset Config) := by
    have hlt : ((∅ : Finset Nat).card < m) := by
      simp only [Finset.card_empty]
      omega
    rw [Finset.powerset_empty, Finset.filter_singleton, if_pos hlt]
  have h2 : (∅ : Finset Nat).powerset.filter (fun s => s.card = m)
      = (∅ : Finset Config) := by
    have hne : ¬ ((∅ : Finset Nat).card = m) := by
      simp only [Finset.card_empty]
      omega
    rw [Finset.powerset_empty, Finset.filter_singleton, if_neg hne]
  have h0 : (({∅}, ∅) : Finset Config × Finset Config)
      = ((∅ : Finset Nat).powerset.filter (fun s => s.card < m),
         (∅ : Finset Nat).powerset.filter (fun s => s.card = m)) := by
    rw [h1, h2]
  simp only [ExhaustiveResultSet]
  rw [h0, exhaustiveFold_char m hm (sortNat cands) ∅ (sortNat_nodup cands)
    (by simp), Finset.empty_union, sortNat_toFinset]
  ext s
  simp only [Finset.mem_erase, Finset.mem_union, Finset.mem_filter,
    Finset.mem_powerset]
  constructor
  · rintro ⟨hne, (⟨hsub, hc⟩ | ⟨hsub, hc⟩)⟩
    · exact ⟨hsub, hne, by omega⟩
    · exact ⟨hsub, hne, by omega⟩
  · rintro ⟨hsub, hne, hc⟩
    by_cases hcm : s.card = m
    · exact ⟨hne, Or.inl ⟨hsub, hcm⟩⟩
    · exact ⟨hne, Or.inr ⟨hsub, by omega⟩⟩

theorem exhaustiveEnumeration_eq (m : Nat) (hm : 1 ≤ m) (cands : Config) :
    ExhaustiveEnumeration m cands = cands := by
  unfold ExhaustiveEnumeration
  rw [exhaustiveResultSet_eq m hm]
  apply Finset.Subset.antisymm
  · show (cands.powerset.filter (fun s => s ≠ ∅ ∧ s.card ≤ m)).sup id ≤ cands
    apply Finset.sup_le
    intro s hs
    simp only [Finset.mem_filter, Finset.mem_powerset] at hs
    exact hs.1
  · intro i hi
    have hmem : ({i} : Finset Nat)
        ∈ cands.powerset.filter (fun s => s ≠ ∅ ∧ s.card ≤ m) := by
      simp only [Finset.mem_filter, Finset.mem_powerset,
        Finset.singleton_subset_iff, Finset.card_singleton]
      exact ⟨hi, by simp, hm⟩
    have hle := Finset.le_sup (f := id) hmem
    exact Finset.singleton_subset_iff.mp hle

theorem greedyAux_remaining_empty (oracle : Oracle) (w : List Nat) (k : Nat)
    (fuel count : Nat) (indexes : Config) (gmin : Int) :
    greedyAux oracle w k fuel count indexes ∅ gmin = indexes := by
  cases fuel with
  | zero => rfl
  | succ f =>
    have hsort : sortNat (∅ : Config) = [] := rfl
    simp [greedyAux, greedyInner, hsort]

theorem greedySearch_remaining_empty (m k : Nat) (oracle : Oracle)
    (w : List Nat) (indexes : Config) :
    GreedySearch m k oracle w indexes ∅ = indexes := by
  unfold GreedySearch
  split
  · rfl
  · exact greedyAux_remaining_empty oracle w k (k - m) m indexes
      (costW oracle w indexes)

theorem enumerate_eq_cands (m k : Nat) (oracle : Oracle) (cands : Config)
    (w : List Nat) (hm : 1 ≤ m) :
    Enumerate m k oracle cands w = cands := by
  simp only [Enumerate, GetRemainingIndexes]
  rw [exhaustiveEnumeration_eq m hm, Finset.sdiff_self]
  exact greedySearch_remaining_empty m k oracle w cands

theorem getCost_memo_preserved (oracle : Oracle) (config : Config) :
    ∀ (w : List Nat) (st : CostState) (key : Config × Nat) (v : Int),
    memoLookup st.memo key = some v →
    memoLookup (GetCost oracle config w st).2.memo key = some v := by
  intro w
  induction w with
  | nil => intro st key v h; exact h
  | cons q rest ih =>
    intro st key v h
    cases hlk : memoLookup st.memo (config, q) with
    | some u =>
      simp only [GetCost, hlk]
      exact ih st key v h
    | none =>
      simp only [GetCost, hlk]
      apply ih
      have hne : (config, q) ≠ key := by
        intro heq
        rw [heq, h] at hlk
        exact Option.noConfusion hlk
      simp only [memoLookup, if_neg hne]
      exact h

theorem getCost_memoizes (oracle : Oracle) (config : Config) :
    ∀ (w : List Nat) (st : CostState) (q : Nat), q ∈ w →
    (memoLookup (GetCost oracle config w st).2.memo (config, q)).isSome := by
  intro w
  induction w with
  | nil => intro st q hq; exact absurd hq (List.not_mem_nil q)
  | cons p rest ih =>
    intro st q hq
    cases hlk : memoLookup st.memo (config, p) with
    | some u =>
      simp only [GetCost, hlk]
      rcases List.mem_cons.mp hq with hqp | hqrest
      · subst hqp
        rw [getCost_memo_preserved oracle config rest st (config, q) u hlk]
        rfl
      · exact ih st q hqrest
    | none =>
      simp only [GetCost, hlk]
      rcases List.mem_cons.mp hq with hqp | hqrest
      · subst hqp
        have hhead : memoLookup (((config, q), oracle config q) :: st.memo)
            (config, q) = some (oracle config q) := by
          simp [memoLookup]
        rw [getCost_memo_preserved oracle config rest _ (config, q) _ hhead]
        rfl
      · exact ih _ q hqrest

theorem getCost_calls (oracle : Oracle) (config : Config) :
    ∀ (w : List Nat) (st : CostState),
    ∃ new, (GetCost oracle config w st).2.calls = st.calls ++ new ∧
      new.Nodup ∧ ∀ pr ∈ new, memoLookup st.memo pr = none := by
  intro w
  induction w with
  | nil => intro st; exact ⟨[], by simp [GetCost], List.nodup_nil, by simp⟩
  | cons q rest ih =>
    intro st
    cases hlk : memoLookup st.memo (config, q) with
    | some u =>
      obtain ⟨new, hcalls, hnodup, hmiss⟩ := ih st
      exact ⟨new, by simp only [GetCost, hlk]; exact hcalls, hnodup, hmiss⟩
    | none =>
      set st1 : CostState :=
        ⟨((config, q), oracle config q) :: st.memo, st.calls ++ [(config, q)]⟩ with hst1
      obtain ⟨new, hcalls, hnodup, hmiss⟩ := ih st1
      refine ⟨(config, q) :: new, ?_, ?_, ?_⟩
      · simp only [GetCost, hlk]
        rw [hcalls, hst1]
        simp
      · refine List.nodup_cons.mpr ⟨?_, hnodup⟩
        intro hmem
        have := hmiss (config, q) hmem
        rw [hst1] at this
        simp [memoLookup] at this
      · intro pr hpr
        rcases List.mem_cons.mp hpr with hp | hp
        · subst hp; exact hlk
        · have hnone := hmiss pr hp
          rw [hst1] at hnone
          simp only [memoLookup] at hnone
          by_cases hpe : ((config, q) : Config × Nat) = pr
          · rw [if_pos hpe] at hnone
            exact Option.noConfusion hnone
          · rw [if_neg hpe] at hnone
            exact hnone

theorem getCost_value (oracle : Oracle) (config : Config) :
    ∀ (w : List Nat) (st : CostState),
    (GetCost oracle config w st).1
      = (w.map (fun q =>
          (memoLookup (GetCost oracle config w st).2.memo (config, q)).getD 0)).sum := by
  intro w
  induction w with
  | nil => intro st; simp [GetCost]
  | cons q rest ih =>
    intro st
    cases hlk : memoLookup st.memo (config, q) with
    | some u =>
      simp only [GetCost, hlk, List.map_cons, List.sum_cons]
      rw [getCost_memo_preserved oracle config rest st (config, q) u hlk]
      simp only [Option.getD_some]
      rw [ih st]
    | none =>
      simp only [GetCost, hlk, List.map_cons, List.sum_cons]
      have hhead : memoLookup (((config, q), oracle config q) :: st.memo)
          (config, q) = some (oracle config q) := by
        simp [memoLookup]
      rw [getCost_memo_preserved oracle config rest _ (config, q) _ hhead]
      simp only [Option.getD_some]
      rw [ih]

theorem getCost_of_memoized (oracle : Oracle) (config : Config) :
    ∀ (w : List Nat) (st : CostState),
    (∀ q ∈ w, (memoLookup st.memo (config, q)).isSome) →
    GetCost oracle config w st
      = ((w.map (fun q => (memoLookup st.memo (config, q)).getD 0)).sum, st) := by
  intro w
  induction w with
  | nil => intro st _; simp [GetCost]
  | cons q rest ih =>
    intro st hmem
    have hq := hmem q (by simp)
    cases hlk : memoLookup st.memo (config, q) with
    | none => rw [hlk] at hq; exact absurd hq (by simp)
    | some u =>
      simp only [GetCost, hlk, List.map_cons, List.sum_cons]
      rw [ih st (fun p hp => hmem p (List.mem_cons_of_mem q hp))]
      simp [hlk]

theorem poolFind_getObj :
    ∀ (p : Pool) (o : IndexObject) (j : Nat), poolFind p o = some j →
    j < p.length ∧ getObj p j = o := by
  intro p
  induction p with
  | nil => intro o j h; simp [poolFind] at h
  | cons x xs ih =>
    intro o j h
    simp only [poolFind] at h
    by_cases hx : x = o
    · rw [if_pos hx] at h
      have hj : j = 0 := by
        have := Option.some.inj h
        omega
      subst hj
      subst hx
      exact ⟨by simp, rfl⟩
    · rw [if_neg hx] at h
      cases hfind : poolFind xs o with
      | none => rw [hfind] at h; simp at h
      | some j2 =>
        rw [hfind] at h
        simp only [Option.map_some'] at h
        have hj : j = j2 + 1 := (Option.some.inj h).symm
        subst hj
        obtain ⟨hlt, hobj⟩ := ih o j2 hfind
        refine ⟨by simp; omega, ?_⟩
        simpa [getObj, List.getD_cons_succ] using hobj

theorem putIndexObject_spec (p : Pool) (o : IndexObject) :
    (∃ ext, (PutIndexObject p o).2 = p ++ ext) ∧
    (PutIndexObject p o).1 < (PutIndexObject p o).2.length ∧
    getObj (PutIndexObject p o).2 (PutIndexObject p o).1 = o := by
  unfold PutIndexObject
  cases hfind : poolFind p o with
  | some j =>
    obtain ⟨hlt, hobj⟩ := poolFind_getObj p o j hfind
    exact ⟨⟨[], by simp⟩, hlt, hobj⟩
  | none =>
    refine ⟨⟨[o], rfl⟩, by simp, ?_⟩
    unfold getObj
    rw [List.getD_eq_getElem?_getD, List.getElem?_append_right (le_refl p.length)]
    simp

theorem getObj_append (p ext : Pool) (h : Nat) (hlt : h < p.length) :
    getObj (p ++ ext) h = getObj p h := by
  unfold getObj
  rw [List.getD_eq_getElem?_getD, List.getD_eq_getElem?_getD,
    List.getElem?_append_left hlt]

theorem singleColConfig_empty (p : Pool) : singleColConfig p ∅ := by
  intro h hmem
  exact absurd hmem (Finset.not_mem_empty h)

theorem singleColConfig_append (p ext : Pool) (c : Config)
    (h : singleColConfig p c) : singleColConfig (p ++ ext) c := by
  intro x hx
  obtain ⟨hlt, hcard⟩ := h x hx
  refine ⟨by simp; omega, ?_⟩
  rw [getObj_append p ext x hlt]
  exact hcard

theorem singleColConfig_union (p : Pool) (c1 c2 : Config)
    (h1 : singleColConfig p c1) (h2 : singleColConfig p c2) :
    singleColConfig p (c1 ∪ c2) := by
  intro x hx
  rcases Finset.mem_union.mp hx with h | h
  · exact h1 x h
  · exact h2 x h

theorem insertHelper_spec (oids : Nat × Nat × Nat) (p : Pool) (c : Config) :
    (∃ ext, (IndexObjectPoolInsertHelper oids p c).1 = p ++ ext) ∧
    (singleColConfig p c →
      singleColConfig (IndexObjectPoolInsertHelper oids p c).1
        (IndexObjectPoolInsertHelper oids p c).2) := by
  obtain ⟨⟨ext, hext⟩, hlt, hobj⟩ :=
    putIndexObject_spec p (IndexObject.ofColumn oids.1 oids.2.1 oids.2.2)
  simp only [IndexObjectPoolInsertHelper]
  refine ⟨⟨ext, hext⟩, ?_⟩
  intro hc
  intro x hx
  simp only [Finset.mem_insert] at hx
  rcases hx with hx0 | hx0
  · subst hx0
    refine ⟨hlt, ?_⟩
    rw [hobj]
    exact Finset.card_singleton _
  · have hmono := (singleColConfig_append p ext c hc)
    rw [← hext] at hmono
    exact hmono x hx0

theorem parseWhere_spec :
    ∀ (e : Expr) (p : Pool) (c : Config) (pf : Pool) (cf : Config),
    parseWhere e p c = some (pf, cf) →
    (∃ ext, pf = p ++ ext) ∧
    (singleColConfig p c → singleColConfig pf cf) := by
  intro e
  induction e with
  | tupleVal oids b => intro p c pf cf h; simp [parseWhere] at h
  | constVal => intro p c pf cf h; simp [parseWhere] at h
  | unsupported => intro p c pf cf h; simp [parseWhere] at h
  | cmp op l r ihl ihr =>
    intro p c pf cf h
    unfold parseWhere at h
    by_cases hl : l.isTuple
    · rw [if_pos hl] at h
      by_cases hr : r.isTuple
      · rw [if_pos hr] at h
        exact absurd h (by simp)
      · rw [if_neg hr] at h
        cases l with
        | tupleVal oids b =>
          cases b with
          | false => simp at h
          | true =>
            simp only [if_pos] at h
            have h2 : IndexObjectPoolInsertHelper oids p c = (pf, cf) :=
              Option.some.inj h
            obtain ⟨hex, hmono⟩ := insertHelper_spec oids p c
            rw [h2] at hex hmono
            exact ⟨hex, hmono⟩
        | constVal => simp [Expr.isTuple] at hl
        | cmp op2 l2 r2 => simp [Expr.isTuple] at hl
        | conjAnd l2 r2 => simp [Expr.isTuple] at hl
        | conjOr l2 r2 => simp [Expr.isTuple] at hl
        | unsupported => simp [Expr.isTuple] at hl
    · rw [if_neg hl] at h
      cases r with
      | tupleVal oids b =>
        cases b with
        | false => simp at h
        | true =>
          simp only [if_pos] at h
          have h2 : IndexObjectPoolInsertHelper oids p c = (pf, cf) :=
            Option.some.inj h
          obtain ⟨hex, hmono⟩ := insertHelper_spec oids p c
          rw [h2] at hex hmono
          exact ⟨hex, hmono⟩
      | constVal => simp at h
      | cmp op2 l2 r2 => simp at h
      | conjAnd l2 r2 => simp at h
      | conjOr l2 r2 => simp at h
      | unsupported => simp at h
  | conjAnd l r ihl ihr =>
    intro p c pf cf h
    simp only [parseWhere] at h
    rw [Option.bind_eq_some] at h
    obtain ⟨s, h1, h2⟩ := h
    obtain ⟨⟨ext1, he1⟩, hm1⟩ := ihl p c s.1 s.2 h1
    obtain ⟨⟨ext2, he2⟩, hm2⟩ := ihr s.1 s.2 pf cf h2
    refine ⟨⟨ext1 ++ ext2, ?_⟩, fun hc => hm2 (hm1 hc)⟩
    rw [he2, he1, List.append_assoc]
  | conjOr l r ihl ihr =>
    intro p c pf cf h
    simp only [parseWhere] at h
    rw [Option.bind_eq_some] at h
    obtain ⟨s, h1, h2⟩ := h
    obtain ⟨⟨ext1, he1⟩, hm1⟩ := ihl p c s.1 s.2 h1
    obtain ⟨⟨ext2, he2⟩, hm2⟩ := ihr s.1 s.2 pf cf h2
    refine ⟨⟨ext1 ++ ext2, ?_⟩, fun hc => hm2 (hm1 hc)⟩
    rw [he2, he1, List.append_assoc]

theorem whereHelper_spec (e : Option Expr) (p : Pool) (c : Config)
    (pf : Pool) (cf : Config)
    (h : IndexColsParseWhereHelper e p c = some (pf, cf)) :
    (∃ ext, pf = p ++ ext) ∧
    (singleColConfig p c → singleColConfig pf cf) := by
  cases e with
  | none =>
    have h2 : ((p, c) : Pool × Config) = (pf, cf) := Option.some.inj h
    obtain ⟨hp, hc⟩ := Prod.mk.injEq .. ▸ h2
    subst hp
    subst hc
    exact ⟨⟨[], by simp⟩, fun hc => hc⟩
  | some ex => exact parseWhere_spec ex p c pf cf h

theorem parseTupleList_spec :
    ∀ (es : List Expr) (p : Pool) (c : Config) (pf : Pool) (cf : Config),
    parseTupleList es p c = some (pf, cf) →
    (∃ ext, pf = p ++ ext) ∧
    (singleColConfig p c → singleColConfig pf cf) := by
  intro es
  induction es with
  | nil =>
    intro p c pf cf h
    have h2 : ((p, c) : Pool × Config) = (pf, cf) := Option.some.inj h
    obtain ⟨hp, hc⟩ := Prod.mk.injEq .. ▸ h2
    subst hp
    subst hc
    exact ⟨⟨[], by simp⟩, fun hc => hc⟩
  | cons e rest ih =>
    intro p c pf cf h
    cases e with
    | tupleVal oids b =>
      simp only [parseTupleList] at h
      obtain ⟨⟨ext1, he1⟩, hm1⟩ := insertHelper_spec oids p c
      obtain ⟨⟨ext2, he2⟩, hm2⟩ :=
        ih (IndexObjectPoolInsertHelper oids p c).1
          (IndexObjectPoolInsertHelper oids p c).2 pf cf h
      refine ⟨⟨ext1 ++ ext2, ?_⟩, fun hc => hm2 (hm1 hc)⟩
      rw [he2, he1, List.append_assoc]
    | constVal => simp [parseTupleList] at h
    | cmp op2 l2 r2 => simp [parseTupleList] at h
    | conjAnd l2 r2 => simp [parseTupleList] at h
    | conjOr l2 r2 => simp [parseTupleList] at h
    | unsupported => simp [parseTupleList] at h

theorem clauseHelper_spec (e : Option (List Expr)) (p : Pool) (c : Config)
    (pf : Pool) (cf : Config)
    (h : IndexColsParseClauseHelper e p c = some (pf, cf)) :
    (∃ ext, pf = p ++ ext) ∧
    (singleColConfig p c → singleColConfig pf cf) := by
  cases e with
  | none =>
    have h2 : ((p, c) : Pool × Config) = (pf, cf) := Option.some.inj h
    obtain ⟨hp, hc⟩ := Prod.mk.injEq .. ▸ h2
    subst hp
    subst hc
    exact ⟨⟨[], by simp⟩, fun hc => hc⟩
  | some exprs => exact parseTupleList_spec exprs p c pf cf h

theorem getAdmissible_spec (q : SQLStatement) (p : Pool) (pf : Pool)
    (cf : Config) (h : GetAdmissibleIndexes q p = some (pf, cf)) :
    (∃ ext, pf = p ++ ext) ∧ singleColConfig pf cf := by
  cases q with
  | selectS wh ord grp =>
    simp only [GetAdmissibleIndexes] at h
    rw [Option.bind_eq_some] at h
    obtain ⟨s1, h1, h⟩ := h
    rw [Option.bind_eq_some] at h
    obtain ⟨s2, h2, h3⟩ := h
    obtain ⟨⟨e1, he1⟩, hm1⟩ := whereHelper_spec wh p ∅ s1.1 s1.2 h1
    obtain ⟨⟨e2, he2⟩, hm2⟩ := clauseHelper_spec ord s1.1 s1.2 s2.1 s2.2 h2
    obtain ⟨⟨e3, he3⟩, hm3⟩ := clauseHelper_spec grp s2.1 s2.2 pf cf h3
    refine ⟨⟨e1 ++ (e2 ++ e3), ?_⟩,
      hm3 (hm2 (hm1 (singleColConfig_empty p)))⟩
    rw [he3, he2, he1, List.append_assoc, List.append_assoc]
  | insertS sel =>
    cases sel with
    | none =>
      simp only [GetAdmissibleIndexes] at h
      have h2 : ((p, ∅) : Pool × Config) = (pf, cf) := Option.some.inj h
      obtain ⟨hp, hc⟩ := Prod.mk.injEq .. ▸ h2
      subst hp
      subst hc
      exact ⟨⟨[], by simp⟩, singleColConfig_empty p⟩
    | some wh =>
      simp only [GetAdmissibleIndexes] at h
      obtain ⟨hex, hmono⟩ := whereHelper_spec wh p ∅ pf cf h
      exact ⟨hex, hmono (singleColConfig_empty p)⟩
  | deleteS wh =>
    simp only [GetAdmissibleIndexes] at h
    obtain ⟨hex, hmono⟩ := whereHelper_spec wh p ∅ pf cf h
    exact ⟨hex, hmono (singleColConfig_empty p)⟩
  | updateS wh =>
    simp only [GetAdmissibleIndexes] at h
    obtain ⟨hex, hmono⟩ := whereHelper_spec wh p ∅ pf cf h
    exact ⟨hex, hmono (singleColConfig_empty p)⟩
  | otherS => simp [GetAdmissibleIndexes] at h

theorem getBestIndexesAux_singleCol (m : Nat) (oracle : Oracle) (hm : 1 ≤ m) :
    ∀ (qs : List SQLStatement) (qIdx : Nat) (p : Pool) (acc : Config)
      (pf : Pool) (rf : Config),
    singleColConfig p acc →
    GetBestIndexesAux m oracle qs qIdx p acc = some (pf, rf) →
    singleColConfig pf rf := by
  intro qs
  induction qs with
  | nil =>
    intro qIdx p acc pf rf hacc h
    have h2 : ((p, acc) : Pool × Config) = (pf, rf) := Option.some.inj h
    obtain ⟨hp, hc⟩ := Prod.mk.injEq .. ▸ h2
    subst hp
    subst hc
    exact hacc
  | cons q rest ih =>
    intro qIdx p acc pf rf hacc h
    simp only [GetBestIndexesAux] at h
    rw [Option.bind_eq_some] at h
    obtain ⟨s, hadm, h⟩ := h
    by_cases hassert : ExhaustiveAssert m s.2
    · rw [if_pos hassert] at h
      obtain ⟨⟨ext, hext⟩, hsingle⟩ := getAdmissible_spec q p s.1 s.2 hadm
      refine ih (qIdx + 1) s.1 (acc ∪ Enumerate m 4 oracle s.2 [qIdx]) pf rf ?_ h
      rw [enumerate_eq_cands m 4 oracle s.2 [qIdx] hm]
      refine singleColConfig_union s.1 acc s.2 ?_ hsingle
      rw [hext]
      exact singleColConfig_append p ext acc hacc
    · rw [if_neg hassert] at h
      exact absurd h (by simp)

/-! ## Claims -/

/-- Claim C1: for every non-empty candidate configuration passing the
`min_enumerate_count` assertion with m ≥ 1, and regardless of the oracle, the
workload and k: the union of the members of the enumerated subsets is the
entire candidate set, `GetRemainingIndexes` yields the empty configuration,
and `Enumerate` returns a configuration equal to the candidate set. -/
theorem enumerate_returns_candidate_set (m k : Nat) (oracle : Oracle)
    (cands : Config) (w : List Nat) (hm : 1 ≤ m)
    (ha : ExhaustiveAssert m cands) :
    ExhaustiveEnumeration m cands = cands ∧
    GetRemainingIndexes cands (ExhaustiveEnumeration m cands) = ∅ ∧
    Enumerate m k oracle cands w = cands := by
  refine ⟨exhaustiveEnumeration_eq m hm cands, ?_, enumerate_eq_cands m k oracle cands w hm⟩
  rw [exhaustiveEnumeration_eq m hm cands]
  exact Finset.sdiff_self cands

/-- Witness for `enumerate_returns_candidate_set`: candidates {0, 1},
m = 1, k = 2, the zero oracle, a one-query workload. -/
theorem enumerate_returns_candidate_set_witness :
    ((1 : Nat) ≤ 1 ∧ ExhaustiveAssert 1 ({0, 1} : Config)) ∧
    Enumerate 1 2 oracleZero {0, 1} [0] = {0, 1} :=
  ⟨⟨by decide, by decide⟩,
   (enumerate_returns_candidate_set 1 2 oracleZero {0, 1} [0]
     (by decide) (by decide)).2.2⟩

/-- Claim C5 counterexample: with candidates {0, 1}, m = 2 ≥ k = 1, and an
oracle that makes the singleton {0} strictly cheapest, `Enumerate` returns
the whole candidate set {0, 1} — a configuration of size 2 > k that is not
the cheapest subset of size at most k. -/
theorem seed_phase_counterexample :
    Enumerate 2 1 oracleSeed {0, 1} [0] = {0, 1} ∧
    costW oracleSeed [0] {0} < costW oracleSeed [0] {0, 1} ∧
    ¬ (Enumerate 2 1 oracleSeed {0, 1} [0]).card ≤ 1 := by
  refine ⟨by decide, by decide, by decide⟩

/-- Claim C5 (amended): the seed phase enumerates exactly the non-empty
subsets of the candidates of size at most m (no cost is attached to them in
the embedded model; the comparator that would order them is not part of
src/), and whenever m ≥ k `Enumerate` returns the union of the members of
all these subsets — the entire candidate set — with the greedy loop never
run. -/
theorem seed_phase_enumeration (m k : Nat) (oracle : Oracle) (cands : Config)
    (w : List Nat) (hm : 1 ≤ m) (ha : ExhaustiveAssert m cands) (hk : k ≤ m) :
    ExhaustiveResultSet m cands
      = cands.powerset.filter (fun s => s ≠ ∅ ∧ s.card ≤ m) ∧
    Enumerate m k oracle cands w = ExhaustiveEnumeration m cands ∧
    Enumerate m k oracle cands w = cands := by
  refine ⟨exhaustiveResultSet_eq m hm cands, ?_,
    enumerate_eq_cands m k oracle cands w hm⟩
  simp only [Enumerate, GreedySearch, GetRemainingIndexes, if_pos hk]

/-- Witness for `seed_phase_enumeration`: candidates {0, 1}, m = 2, k = 1,
the zero oracle. -/
theorem seed_phase_enumeration_witness :
    ((1 : Nat) ≤ 2 ∧ ExhaustiveAssert 2 ({0, 1} : Config) ∧ (1 : Nat) ≤ 2) ∧
    Enumerate 2 1 oracleZero {0, 1} [0] = {0, 1} :=
  ⟨⟨by decide, by decide, by decide⟩,
   (seed_phase_enumeration 2 1 oracleZero {0, 1} [0]
     (by decide) (by decide) (by decide)).2.2⟩

/-- Claim C6 counterexample: with two candidates and k = 1 (m = 1), the
per-query configuration returned by `Enumerate` has 2 > k members. -/
theorem per_query_bound_counterexample :
    (Enumerate 1 1 oracleBound {0, 1} [0]).card = 2 ∧
    ¬ (Enumerate 1 1 oracleBound {0, 1} [0]).card ≤ 1 := by
  refine ⟨by decide, by decide⟩

/-- Claim C6 (amended): the per-query configuration returned by `Enumerate`
is the entire candidate set, so its size equals the number of candidates —
bounded by |A_q|, not by k. -/
theorem per_query_result_size (m k : Nat) (oracle : Oracle) (cands : Config)
    (w : List Nat) (hm : 1 ≤ m) (ha : ExhaustiveAssert m cands) :
    (Enumerate m k oracle cands w).card = cands.card := by
  rw [enumerate_eq_cands m k oracle cands w hm]

/-- Witness for `per_query_result_size`: five candidates, k = 2, m = 1. -/
theorem per_query_result_size_witness :
    ((1 : Nat) ≤ 1 ∧ ExhaustiveAssert 1 ({0, 1, 2, 3, 4} : Config)) ∧
    (Enumerate 1 2 oracleZero {0, 1, 2, 3, 4} [0]).card = ({0, 1, 2, 3, 4} : Config).card :=
  ⟨⟨by decide, by decide⟩,
   per_query_result_size 1 2 oracleZero {0, 1, 2, 3, 4} [0] (by decide) (by decide)⟩

/-- Claim C3 counterexample: the claim asserts that for two distinct columns
the key built from the column list (100, 101) is not equal to the key built
from (101, 100); in the source the columns live in a `std::set<oid_t>`, so
the two constructions produce equal objects. -/
theorem index_key_column_order_counterexample :
    (100 : Nat) ≠ 101 ∧
    IndexObject.ofColumns 1 10 [100, 101] = IndexObject.ofColumns 1 10 [101, 100] := by
  constructor
  · decide
  · decide

/-- Claim C3 (amended): two IndexObjects are equal iff their `db_oid`,
`table_oid` and column sets are all equal; because the columns are stored in
a `std::set`, column order is not significant, and the key built from columns
(a, b) equals the key built from (b, a). -/
theorem index_key_equality (a b : IndexObject) (db t x y : Nat) :
    (a.eqOp b ↔ a = b) ∧
    IndexObject.ofColumns db t [x, y] = IndexObject.ofColumns db t [y, x] :=
  ⟨eqOp_iff a b, ofColumns_pair_comm db t x y⟩

/-- Claim C2 counterexample: with `a` the single-column key on column 101 and
`b` the single-column key on column 100 (same table), the column sequence of
`merge(a, b)` is the ascending set iteration `[100, 101]`, not the
spec-prescribed concatenation `[101, 100]`; and the merge is commutative. -/
theorem merge_order_counterexample :
    ((IndexObject.ofColumn 1 10 101).Merge (IndexObject.ofColumn 1 10 100)).columnsSeq ≠
      specMergeColumns (IndexObject.ofColumn 1 10 101) (IndexObject.ofColumn 1 10 100) ∧
    (IndexObject.ofColumn 1 10 101).Merge (IndexObject.ofColumn 1 10 100) =
      (IndexObject.ofColumn 1 10 100).Merge (IndexObject.ofColumn 1 10 101) := by
  constructor
  · decide
  · decide

/-- Claim C2 (amended): for compatible keys, `merge(a, b)` keeps the
identity of `a` and its column set is the union of the two column sets
(iterated in ascending oid order, since the columns are a `std::set`); the
merge is commutative on compatible keys. -/
theorem merge_columns (a b : IndexObject) (h : a.IsCompatible b) :
    (a.Merge b).db_oid = a.db_oid ∧ (a.Merge b).table_oid = a.table_oid ∧
    (a.Merge b).column_oids = a.column_oids ∪ b.column_oids ∧
    a.Merge b = b.Merge a := by
  obtain ⟨hdb, ht⟩ := h
  refine ⟨rfl, rfl, rfl, ?_⟩
  unfold IndexObject.Merge
  rw [hdb, ht, Finset.union_comm]

/-- Witness for `merge_columns` at the concrete compatible pair of
single-column keys on columns 101 and 100 of table (1, 10). -/
theorem merge_columns_witness :
    (IndexObject.ofColumn 1 10 101).IsCompatible (IndexObject.ofColumn 1 10 100) ∧
    ((IndexObject.ofColumn 1 10 101).Merge (IndexObject.ofColumn 1 10 100)).column_oids =
      (IndexObject.ofColumn 1 10 101).column_oids ∪ (IndexObject.ofColumn 1 10 100).column_oids :=
  ⟨by decide, (merge_columns _ _ (by decide)).2.2.1⟩

/-- Claim C4 counterexample: for `SELECT * FROM t WHERE a = 1 AND b = 2`,
the admissible single-column set is `{0, 1}` over the pool interning the two
single-column keys; the multi-column growth (`GenMultiColumnIndexes`) of
that set is `{0, 1, 2}` — it adds the two-column key — yet `GetBestIndexes`
passes the ungrown set `{0, 1}` to `Enumerate`, returning `{0, 1}`; had the
grown set been passed, the result would have been `{0, 1, 2}`. -/
theorem multi_column_growth_counterexample :
    (GetAdmissibleIndexes qAndAB []).isSome = true ∧
    (GetAdmissibleIndexes qAndAB []).getD ([], ∅) = (poolAB, ({0, 1} : Config)) ∧
    (GenMultiColumnIndexes {0, 1} {0, 1} poolAB).1 = {0, 1, 2} ∧
    ({0, 1} : Config) ≠ {0, 1, 2} ∧
    GetBestIndexes 1 oracleZero [qAndAB] = some (poolAB, {0, 1}) ∧
    Enumerate 1 4 oracleZero {0, 1, 2} [0] = {0, 1, 2} := by
  refine ⟨by decide, by decide, by decide, by decide, by decide, by decide⟩

/-- Claim C4 (amended): `GetBestIndexes` never invokes the multi-column
growth: the per-query candidate configuration handed to `Enumerate` is the
single-column admissible set itself, so every handle in any result of
`GetBestIndexes` references a single-column index object of the final
pool. -/
theorem best_indexes_single_column (m : Nat) (oracle : Oracle)
    (qs : List SQLStatement) (pf : Pool) (rf : Config) (hm : 1 ≤ m)
    (h : GetBestIndexes m oracle qs = some (pf, rf)) :
    singleColConfig pf rf :=
  getBestIndexesAux_singleCol m oracle hm qs 0 [] ∅ pf rf
    (singleColConfig_empty []) h

/-- Witness for `best_indexes_single_column` at the one-query workload
`qAndAB` with m = 1. -/
theorem best_indexes_single_column_witness :
    ((1 : Nat) ≤ 1 ∧
      GetBestIndexes 1 oracleZero [qAndAB] = some (poolAB, ({0, 1} : Config))) ∧
    singleColConfig poolAB {0, 1} :=
  ⟨⟨by decide, by decide⟩,
   best_indexes_single_column 1 oracleZero [qAndAB] poolAB {0, 1}
     (by decide) (by decide)⟩

/-- Claim C7 counterexample: extracting the admissible set of
`SELECT * FROM t WHERE b = 2 AND a = 1` interns the key on column 101 before
the key on column 100, so the configuration `{0, 1}` iterates its members in
handle (pointer) order, which is the reverse of ascending canonical-key
order. -/
theorem iteration_not_canonical_counterexample :
    (GetAdmissibleIndexes qAndBA []).isSome = true ∧
    (GetAdmissibleIndexes qAndBA []).getD ([], ∅) = (poolBA, ({0, 1} : Config)) ∧
    ¬ canonicallyOrdered poolBA {0, 1} := by
  refine ⟨by decide, by decide, by decide⟩

/-- Claim C7 (amended): a configuration iterates its members in strictly
ascending handle (pointer) order; the order is a function of the member set
alone, hence identical on every iteration, but it is not in general the
ascending canonical-string order of the members. -/
theorem iteration_deterministic (c : Config) :
    List.Sorted (· < ·) c.iterate ∧ ∀ h : Nat, h ∈ c.iterate ↔ h ∈ c := by
  constructor
  · exact sortNat_sorted_lt c
  · intro h
    exact mem_sortNat c h

/-- Claim C8: within one enumerator invocation, for any fixed
(configuration, workload) pair, a second `GetCost` call returns exactly the
value and state of the first (identical value, no further oracle
invocations), and the oracle invocation log of the first call is
duplicate-free: each (configuration, statement) pair is invoked at most
once. -/
theorem cost_memo_consistency (oracle : Oracle) (config : Config)
    (w : List Nat) :
    GetCost oracle config w (GetCost oracle config w ⟨[], []⟩).2
      = GetCost oracle config w ⟨[], []⟩ ∧
    ((GetCost oracle config w ⟨[], []⟩).2.calls).Nodup := by
  constructor
  · have hmem : ∀ q ∈ w,
        (memoLookup ((GetCost oracle config w ⟨[], []⟩).2).memo (config, q)).isSome :=
      fun q hq => getCost_memoizes oracle config w ⟨[], []⟩ q hq
    rw [getCost_of_memoized oracle config w _ hmem]
    refine Prod.ext ?_ rfl
    exact (getCost_value oracle config w ⟨[], []⟩).symm
  · obtain ⟨new, hcalls, hnodup, _⟩ := getCost_calls oracle config w ⟨[], []⟩
    rw [hcalls]
    simpa using hnodup

/-- Claim C9: the greedy phase is claimed to have non-increasing cost, with
a strict decrease whenever a handle is added.  On the failing input below
the source adds the best handle 1 on top of a configuration still containing
the last probed handle 2 (the probe loop leaves `indexes` holding the
original set plus the last probed handle), so the configuration after the
addition is `{0, 1, 2}` with cost 50, strictly above the cost 10 of the
seed `{0}`. -/
theorem greedy_cost_increase_failing_input :
    GreedySearch 1 3 oracleGreedy [0] {0} {1, 2} = {0, 1, 2} ∧
    costW oracleGreedy [0] {0} = 10 ∧
    costW oracleGreedy [0] {0, 1, 2} = 50 ∧
    costW oracleGreedy [0] {0} <
      costW oracleGreedy [0] (GreedySearch 1 3 oracleGreedy [0] {0} {1, 2}) := by
  refine ⟨by decide, by decide, by decide, by decide⟩

/-- Claim C10: a SELECT with no WHERE, GROUP BY or ORDER BY has an empty
admissible set, so for any `min_enumerate_count m ≥ 1` the assertion
`m <= indexes.GetIndexCount()` of `ExhaustiveEnumeration` fails and
`GetBestIndexes` aborts instead of returning a result. -/
theorem empty_select_fails_assert (m : Nat) (oracle : Oracle) (hm : 1 ≤ m) :
    GetAdmissibleIndexes (.selectS none none none) [] = some ([], (∅ : Config)) ∧
    ¬ ExhaustiveAssert m (∅ : Config) ∧
    GetBestIndexes m oracle [.selectS none none none] = none := by
  have hassert : ¬ ExhaustiveAssert m (∅ : Config) := by
    unfold ExhaustiveAssert
    simp only [Finset.card_empty]
    omega
  refine ⟨rfl, hassert, ?_⟩
  unfold GetBestIndexes GetBestIndexesAux
  simp [GetAdmissibleIndexes, IndexColsParseWhereHelper, IndexColsParseClauseHelper,
    hassert]

/-- Witness for `empty_select_fails_assert` at `m = 1` with the zero
oracle. -/
theorem empty_select_fails_assert_witness :
    (1 : Nat) ≤ 1 ∧ GetBestIndexes 1 oracleZero [.selectS none none none] = none :=
  ⟨by decide, (empty_select_fails_assert 1 oracleZero (by decide)).2.2⟩

end PelotonBrain
